import Mathlib

/-!
# Verification of the recurring-date expansion core of the Remind Me app

This file gives a shallow embedding of the date logic of the recurring
reminder application (the `calculateRecurringDates` function, the
save-time event merge `handleSave`, and the event-type cascade delete
`deleteEventType`), and proves the specification claims about them.

The source manipulates JavaScript `Date` values that always sit at local
midnight (the cursor) or local end of day (the effective end date).  We
model such a value by its day number: the number of days since 1970-01-01
in the proleptic Gregorian calendar, as an `Int`.  The conversions
`daysFromCivil` / `civilFromDays` below implement the standard civil
calendar arithmetic that ECMAScript `Date` objects expose through
`new Date(y, m, d)`, `getFullYear`, `getMonth`, `getDate`, `getDay` and
`toISOString` (the spec works in naive local-calendar dates, so the
timezone offset is taken to be zero).  All divisions are the `Int`
division of Lean, which rounds toward negative infinity for the positive
literal divisors used here.
-/

/-- Day number of the civil date `(y, m, d)` with `m` in `1..12`, counted
from 1970-01-01 (Howard Hinnant style era decomposition).  The formula is
total; out-of-range components are accepted by the arithmetic. -/
def daysFromCivil (y m d : Int) : Int :=
  let yAdj : Int := if m ≤ 2 then y - 1 else y
  let era : Int := yAdj / 400
  let yoe : Int := yAdj - era * 400
  let mp : Int := (m + 9) % 12
  let doy : Int := (153 * mp + 2) / 5 + d - 1
  let doe : Int := yoe * 365 + yoe / 4 - yoe / 100 + doy
  era * 146097 + doe - 719468

/-- Inverse conversion: the civil date `(year, month, day)` of a day
number, with `month` in `1..12`.  The century and year of the 400-year
era are recovered with the Neri-Schneider style quotients. -/
def civilFromDays (t : Int) : Int × Int × Int :=
  let z : Int := t + 719468
  let era : Int := z / 146097
  let doe : Int := z - era * 146097
  let c : Int := (4 * doe + 3) / 146097
  let doc : Int := doe - c * 36524
  let yoc : Int := (4 * doc + 3) / 1461
  let doy : Int := doc - (365 * yoc + yoc / 4)
  let yoe : Int := c * 100 + yoc
  let mp : Int := (5 * doy + 2) / 153
  let d : Int := doy - (153 * mp + 2) / 5 + 1
  let m : Int := if mp < 10 then mp + 3 else mp - 9
  (yoe + era * 400 + (if m ≤ 2 then 1 else 0), m, d)

example : daysFromCivil 1970 1 1 = 0 := by decide
example : civilFromDays 0 = (1970, 1, 1) := by decide
example : daysFromCivil 2024 2 29 = 19782 := by decide
example : civilFromDays 19782 = (2024, 2, 29) := by decide

/-- The decoded month is in `1..12` and the decoded day in `1..31`. -/
theorem civilFromDays_range (t : Int) :
    1 ≤ (civilFromDays t).2.1 ∧ (civilFromDays t).2.1 ≤ 12 ∧
    1 ≤ (civilFromDays t).2.2 ∧ (civilFromDays t).2.2 ≤ 31 := by
  simp only [civilFromDays]
  set z : Int := t + 719468 with hz
  set era : Int := z / 146097 with hera
  set doe : Int := z - era * 146097 with hdoe
  have hdoeB : 0 ≤ doe ∧ doe ≤ 146096 := by omega
  set c : Int := (4 * doe + 3) / 146097 with hc
  have hcB : 0 ≤ c ∧ c ≤ 3 := by omega
  set doc : Int := doe - c * 36524 with hdoc
  have hdocB : 0 ≤ doc ∧ doc ≤ 36524 := by omega
  set yoc : Int := (4 * doc + 3) / 1461 with hyoc
  have hyocB : 0 ≤ yoc ∧ yoc ≤ 99 := by omega
  have hdoyB : 0 ≤ doc - (365 * yoc + yoc / 4) ∧ doc - (365 * yoc + yoc / 4) ≤ 365 := by
    omega
  set doy : Int := doc - (365 * yoc + yoc / 4) with hdoy
  set mp : Int := (5 * doy + 2) / 153 with hmp
  have hmpB : 0 ≤ mp ∧ mp ≤ 11 := by omega
  have hdB : 1 ≤ doy - (153 * mp + 2) / 5 + 1 ∧ doy - (153 * mp + 2) / 5 + 1 ≤ 31 := by
    omega
  split_ifs <;> simp_all <;> omega

/-- A decoded February day is at most 29: the March-based day-of-year is
at most 365, and February starts at offset 337 into the March year. -/
theorem civilFromDays_feb (t : Int) :
    (civilFromDays t).2.1 = 2 → (civilFromDays t).2.2 ≤ 29 := by
  simp only [civilFromDays]
  set z : Int := t + 719468 with hz
  set era : Int := z / 146097 with hera
  set doe : Int := z - era * 146097 with hdoe
  have hdoeB : 0 ≤ doe ∧ doe ≤ 146096 := by omega
  set c : Int := (4 * doe + 3) / 146097 with hc
  have hcB : 0 ≤ c ∧ c ≤ 3 := by omega
  set doc : Int := doe - c * 36524 with hdoc
  have hdocB : 0 ≤ doc ∧ doc ≤ 36524 := by omega
  set yoc : Int := (4 * doc + 3) / 1461 with hyoc
  have hyocB : 0 ≤ yoc ∧ yoc ≤ 99 := by omega
  have hdoyB : 0 ≤ doc - (365 * yoc + yoc / 4) ∧ doc - (365 * yoc + yoc / 4) ≤ 365 := by
    omega
  set doy : Int := doc - (365 * yoc + yoc / 4) with hdoy
  set mp : Int := (5 * doy + 2) / 153 with hmp
  have hmpB : 0 ≤ mp ∧ mp ≤ 11 := by omega
  split_ifs <;> simp_all <;> omega

/-- Encoding the decoded civil date gives back the day number. -/
theorem daysFromCivil_civilFromDays (t : Int) :
    daysFromCivil (civilFromDays t).1 (civilFromDays t).2.1 (civilFromDays t).2.2 = t := by
  simp only [civilFromDays, daysFromCivil]
  set z : Int := t + 719468 with hz
  set era : Int := z / 146097 with hera
  set doe : Int := z - era * 146097 with hdoe
  have hdoeB : 0 ≤ doe ∧ doe ≤ 146096 := by omega
  set c : Int := (4 * doe + 3) / 146097 with hc
  have hcB : 0 ≤ c ∧ c ≤ 3 := by omega
  set doc : Int := doe - c * 36524 with hdoc
  have hdocB : 0 ≤ doc ∧ doc ≤ 36524 := by omega
  set yoc : Int := (4 * doc + 3) / 1461 with hyoc
  have hyocB : 0 ≤ yoc ∧ yoc ≤ 99 := by omega
  have hdoyB : 0 ≤ doc - (365 * yoc + yoc / 4) ∧ doc - (365 * yoc + yoc / 4) ≤ 365 := by
    omega
  set doy : Int := doc - (365 * yoc + yoc / 4) with hdoy
  set mp : Int := (5 * doy + 2) / 153 with hmp
  have hmpB : 0 ≤ mp ∧ mp ≤ 11 := by omega
  have hdB : 1 ≤ doy - (153 * mp + 2) / 5 + 1 ∧ doy - (153 * mp + 2) / 5 + 1 ≤ 31 := by
    omega
  split_ifs with h1 h2
  · omega
  · have e1 : (mp + 3 + 9) % 12 = mp := by omega
    rw [e1]
    have e2 : (c * 100 + yoc + era * 400 + 0) / 400 = era := by omega
    rw [e2]
    have e3 : (c * 100 + yoc + era * 400 + 0 - era * 400) / 4 = 25 * c + yoc / 4 := by omega
    rw [e3]
    have e4 : (c * 100 + yoc + era * 400 + 0 - era * 400) / 100 = c := by omega
    rw [e4]
    omega
  · have e1 : (mp - 9 + 9) % 12 = mp := by omega
    rw [e1]
    have e2 : (c * 100 + yoc + era * 400 + 1 - 1) / 400 = era := by omega
    rw [e2]
    have e3 : (c * 100 + yoc + era * 400 + 1 - 1 - era * 400) / 4 = 25 * c + yoc / 4 := by omega
    rw [e3]
    have e4 : (c * 100 + yoc + era * 400 + 1 - 1 - era * 400) / 100 = c := by omega
    rw [e4]
    omega
  · omega

/-- Arithmetic step: the century quotient of a day-of-era built from a
year-of-era `yoe` and an offset `P` below 338 is the century of `yoe`. -/
theorem centuryStep (yoe P : Int) (h1 : 0 ≤ yoe) (h2 : yoe ≤ 399)
    (hP1 : 0 ≤ P) (hP2 : P ≤ 337) :
    (4 * (yoe * 365 + yoe / 4 - yoe / 100 + P) + 3) / 146097 = yoe / 100 := by
  have hf : yoe / 4 = 25 * (yoe / 100) + (yoe - 100 * (yoe / 100)) / 4 := by omega
  omega

/-- Arithmetic step: recovering the year of century. -/
theorem yocStep (yoe P : Int) (h1 : 0 ≤ yoe) (h2 : yoe ≤ 399)
    (hP1 : 0 ≤ P) (hP2 : P ≤ 337) :
    (4 * ((yoe * 365 + yoe / 4 - yoe / 100 + P) - (yoe / 100) * 36524) + 3) / 1461
      = yoe - 100 * (yoe / 100) := by
  have hf : yoe / 4 = 25 * (yoe / 100) + (yoe - 100 * (yoe / 100)) / 4 := by omega
  omega

/-- Arithmetic step: recovering the day of year. -/
theorem doyStep (yoe P : Int) (h1 : 0 ≤ yoe) (h2 : yoe ≤ 399)
    (hP1 : 0 ≤ P) (hP2 : P ≤ 337) :
    (yoe * 365 + yoe / 4 - yoe / 100 + P) - (yoe / 100) * 36524 -
      (365 * (yoe - 100 * (yoe / 100)) + (yoe - 100 * (yoe / 100)) / 4) = P := by
  have hf : yoe / 4 = 25 * (yoe / 100) + (yoe - 100 * (yoe / 100)) / 4 := by omega
  omega

/-- Arithmetic step: recovering the March-based month from its first day. -/
theorem mpStep (mp : Int) (h3 : 0 ≤ mp) (h4 : mp ≤ 11) :
    (5 * ((153 * mp + 2) / 5) + 2) / 153 = mp := by omega

/-- Century quotient for an offset anywhere inside the March-based year:
the offset may reach 365 exactly when the year of era is a leap year
(divisible by 4 but not by 100, or the final year 399 of the era). -/
theorem centuryStepG (yoe P : Int) (h1 : 0 ≤ yoe) (h2 : yoe ≤ 399) (hP1 : 0 ≤ P)
    (hP2 : P ≤ 364 ∨ (P = 365 ∧ ((yoe % 4 = 3 ∧ ¬ yoe % 100 = 99) ∨ yoe = 399))) :
    (4 * (yoe * 365 + yoe / 4 - yoe / 100 + P) + 3) / 146097 = yoe / 100 := by
  have hf : yoe / 4 = 25 * (yoe / 100) + (yoe - 100 * (yoe / 100)) / 4 := by omega
  rcases hP2 with h | ⟨h, hc | hc⟩ <;> omega

/-- Year-of-century recovery for an offset anywhere inside the year. -/
theorem yocStepG (yoe P : Int) (h1 : 0 ≤ yoe) (h2 : yoe ≤ 399) (hP1 : 0 ≤ P)
    (hP2 : P ≤ 364 ∨ (P = 365 ∧ ((yoe % 4 = 3 ∧ ¬ yoe % 100 = 99) ∨ yoe = 399))) :
    (4 * ((yoe * 365 + yoe / 4 - yoe / 100 + P) - (yoe / 100) * 36524) + 3) / 1461
      = yoe - 100 * (yoe / 100) := by
  have hf : yoe / 4 = 25 * (yoe / 100) + (yoe - 100 * (yoe / 100)) / 4 := by omega
  rcases hP2 with h | ⟨h, hc | hc⟩ <;> omega

/-- Day-of-year recovery is a linear identity, valid for any offset. -/
theorem doyStepG (yoe P : Int) (h1 : 0 ≤ yoe) (h2 : yoe ≤ 399) :
    (yoe * 365 + yoe / 4 - yoe / 100 + P) - (yoe / 100) * 36524 -
      (365 * (yoe - 100 * (yoe / 100)) + (yoe - 100 * (yoe / 100)) / 4) = P := by
  have hf : yoe / 4 = 25 * (yoe / 100) + (yoe - 100 * (yoe / 100)) / 4 := by omega
  omega

/-- A non-leap March-based year has 365 days: its day-of-era start plus
365 is the start of the next year of the era. -/
theorem yearShift (yoe : Int) (h1 : 0 ≤ yoe) (h2 : yoe ≤ 398)
    (hnl : ¬ ((yoe % 4 = 3 ∧ ¬ yoe % 100 = 99) ∨ yoe = 399)) :
    yoe * 365 + yoe / 4 - yoe / 100 + 365
      = (yoe + 1) * 365 + (yoe + 1) / 4 - (yoe + 1) / 100 := by
  have hf : yoe / 4 = 25 * (yoe / 100) + (yoe - 100 * (yoe / 100)) / 4 := by omega
  have hf2 : (yoe + 1) / 4 = 25 * (yoe / 100) + (yoe - 100 * (yoe / 100) + 1) / 4 := by
    omega
  have h100 : (yoe + 1) / 100 = yoe / 100 + (yoe - 100 * (yoe / 100) + 1) / 100 := by
    omega
  omega

/-- Decoding any in-month day offset from the first of a March-based
month recovers the civil year (the adjusted year, plus one for January
and February).  February offsets are capped at 29 days, as produced by
decoding; a Feb 29 offset in a non-leap year decodes as March 1 of the
same civil year. -/
theorem decode_year (yA mp d : Int) (h3 : 0 ≤ mp) (h4 : mp ≤ 11)
    (hd1 : 1 ≤ d) (hd2 : d ≤ 31) (hFeb : mp = 11 → d ≤ 29) :
    (civilFromDays (yA / 400 * 146097 +
        ((yA - yA / 400 * 400) * 365 + (yA - yA / 400 * 400) / 4 -
          (yA - yA / 400 * 400) / 100 + ((153 * mp + 2) / 5 + d - 1)) - 719468)).1
      = yA + (if 10 ≤ mp then 1 else 0) := by
  simp only [civilFromDays]
  set era : Int := yA / 400 with hera
  have hyoeB : 0 ≤ yA - era * 400 ∧ yA - era * 400 ≤ 399 := by omega
  set yoe : Int := yA - era * 400 with hyoe
  have hPB : 0 ≤ (153 * mp + 2) / 5 ∧ (153 * mp + 2) / 5 ≤ 337 := by omega
  set P : Int := (153 * mp + 2) / 5 with hP
  set Pp : Int := P + d - 1 with hPp
  have hz : era * 146097 + (yoe * 365 + yoe / 4 - yoe / 100 + Pp) - 719468 + 719468
      = era * 146097 + (yoe * 365 + yoe / 4 - yoe / 100 + Pp) := by ring
  rw [hz]
  by_cases hcase : Pp ≤ 364 ∨ (Pp = 365 ∧ ((yoe % 4 = 3 ∧ ¬ yoe % 100 = 99) ∨ yoe = 399))
  · set D : Int := yoe * 365 + yoe / 4 - yoe / 100 + Pp with hD
    have hDB : 0 ≤ D ∧ D ≤ 146096 := by
      have hf : yoe / 4 = 25 * (yoe / 100) + (yoe - 100 * (yoe / 100)) / 4 := by omega
      rcases hcase with h | ⟨h, hc⟩ <;> omega
    have he : (era * 146097 + D) / 146097 = era := by omega
    rw [he]
    have hdoe : era * 146097 + D - era * 146097 = D := by ring
    rw [hdoe]
    have hcv := centuryStepG yoe Pp hyoeB.1 hyoeB.2 (by omega) hcase
    rw [← hD] at hcv
    rw [hcv]
    have hyocv := yocStepG yoe Pp hyoeB.1 hyoeB.2 (by omega) hcase
    rw [← hD] at hyocv
    rw [hyocv]
    have hdoyv := doyStepG yoe Pp hyoeB.1 hyoeB.2
    rw [← hD] at hdoyv
    rw [hdoyv]
    split_ifs <;> omega
  · rw [not_or] at hcase
    have hmp11 : mp = 11 := by omega
    have hd29 : d ≤ 29 := hFeb hmp11
    have hPp365 : Pp = 365 := by omega
    have hnl : ¬ ((yoe % 4 = 3 ∧ ¬ yoe % 100 = 99) ∨ yoe = 399) := by
      intro hl
      exact hcase.2 ⟨hPp365, hl⟩
    have hy398 : yoe ≤ 398 := by
      have h399 : ¬ yoe = 399 := fun h => hnl (Or.inr h)
      omega
    have hshift := yearShift yoe hyoeB.1 hy398 hnl
    have hDeq : yoe * 365 + yoe / 4 - yoe / 100 + Pp
        = (yoe + 1) * 365 + (yoe + 1) / 4 - (yoe + 1) / 100 + 0 := by omega
    rw [hDeq]
    have he : (era * 146097 + ((yoe + 1) * 365 + (yoe + 1) / 4 - (yoe + 1) / 100 + 0))
        / 146097 = era := by
      have hf : yoe / 4 = 25 * (yoe / 100) + (yoe - 100 * (yoe / 100)) / 4 := by omega
      omega
    rw [he]
    have hdoe2 : era * 146097 + ((yoe + 1) * 365 + (yoe + 1) / 4 - (yoe + 1) / 100 + 0)
        - era * 146097 = (yoe + 1) * 365 + (yoe + 1) / 4 - (yoe + 1) / 100 + 0 := by ring
    rw [hdoe2]
    have hcv := centuryStepG (yoe + 1) 0 (by omega) (by omega) (by omega) (Or.inl (by omega))
    rw [hcv]
    have hyocv := yocStepG (yoe + 1) 0 (by omega) (by omega) (by omega) (Or.inl (by omega))
    rw [hyocv]
    have hdoyv := doyStepG (yoe + 1) 0 (by omega) (by omega)
    rw [hdoyv]
    split_ifs <;> omega

/-- Decoding the day number of the first of a month (March-based month
`mp` of adjusted year `yA`) recovers that month. -/
theorem decode_encode_one (yA mp : Int) (h3 : 0 ≤ mp) (h4 : mp ≤ 11) :
    civilFromDays (yA / 400 * 146097 +
        ((yA - yA / 400 * 400) * 365 + (yA - yA / 400 * 400) / 4 -
          (yA - yA / 400 * 400) / 100 + ((153 * mp + 2) / 5 + 1 - 1)) - 719468)
      = (yA + (if 10 ≤ mp then 1 else 0), (if mp < 10 then mp + 3 else mp - 9), 1) := by
  simp only [civilFromDays]
  set era : Int := yA / 400 with hera
  have hyoeB : 0 ≤ yA - era * 400 ∧ yA - era * 400 ≤ 399 := by omega
  set yoe : Int := yA - era * 400 with hyoe
  have hPB : 0 ≤ (153 * mp + 2) / 5 ∧ (153 * mp + 2) / 5 ≤ 337 := by omega
  have hz : era * 146097 + (yoe * 365 + yoe / 4 - yoe / 100 + ((153 * mp + 2) / 5 + 1 - 1))
      - 719468 + 719468
      = era * 146097 + (yoe * 365 + yoe / 4 - yoe / 100 + (153 * mp + 2) / 5) := by ring
  rw [hz]
  set D : Int := yoe * 365 + yoe / 4 - yoe / 100 + (153 * mp + 2) / 5 with hD
  have hDB : 0 ≤ D ∧ D ≤ 146096 := by
    have hf : yoe / 4 = 25 * (yoe / 100) + (yoe - 100 * (yoe / 100)) / 4 := by omega
    omega
  have he : (era * 146097 + D) / 146097 = era := by omega
  rw [he]
  have hdoe : era * 146097 + D - era * 146097 = D := by ring
  rw [hdoe]
  have hcv := centuryStep yoe ((153 * mp + 2) / 5) hyoeB.1 hyoeB.2 hPB.1 hPB.2
  rw [← hD] at hcv
  rw [hcv]
  have hyocv := yocStep yoe ((153 * mp + 2) / 5) hyoeB.1 hyoeB.2 hPB.1 hPB.2
  rw [← hD] at hyocv
  rw [hyocv]
  have hdoyv := doyStep yoe ((153 * mp + 2) / 5) hyoeB.1 hyoeB.2 hPB.1 hPB.2
  rw [← hD] at hdoyv
  rw [hdoyv]
  rw [mpStep mp h3 h4]
  simp only [Prod.mk.injEq]
  refine ⟨?_, ?_, ?_⟩
  · split_ifs <;> omega
  · trivial
  · omega

/-- Decoding the day number of the first of a civil month recovers the
civil triple. -/
theorem civilFromDays_daysFromCivil_one (y m : Int) (hm1 : 1 ≤ m) (hm2 : m ≤ 12) :
    civilFromDays (daysFromCivil y m 1) = (y, m, 1) := by
  by_cases hm : m ≤ 2
  · have hmp : (m + 9) % 12 = m + 9 := by omega
    have key := decode_encode_one (y - 1) ((m + 9) % 12) (by omega) (by omega)
    rw [hmp] at key
    simp only [daysFromCivil, if_pos hm, hmp]
    rw [key]
    simp only [Prod.mk.injEq]
    refine ⟨?_, ?_, trivial⟩
    · split_ifs <;> omega
    · split_ifs <;> omega
  · have hmp : (m + 9) % 12 = m - 3 := by omega
    have key := decode_encode_one y ((m + 9) % 12) (by omega) (by omega)
    rw [hmp] at key
    simp only [daysFromCivil, if_neg hm, hmp]
    rw [key]
    simp only [Prod.mk.injEq]
    refine ⟨?_, ?_, trivial⟩
    · split_ifs <;> omega
    · split_ifs <;> omega

/-- The day component enters the encoding as a plain day offset. -/
theorem daysFromCivil_day (y m d : Int) :
    daysFromCivil y m d = daysFromCivil y m 1 + (d - 1) := by
  simp only [daysFromCivil]
  ring

/-! ## The ECMAScript `Date` interface on day numbers

`mkDate y m d` models `new Date(y, m, d)`: the month `m` is zero-based
and arbitrary (it normalizes into the year), and the day `d` is an
arbitrary offset from the first of that month, exactly as the
ECMAScript `MakeDay` operation computes it. -/

def mkDate (y m d : Int) : Int :=
  daysFromCivil (y + m / 12) (m % 12 + 1) 1 + (d - 1)

/-- Models `date.getFullYear()`. -/
def getFullYear (t : Int) : Int := (civilFromDays t).1

/-- Models `date.getMonth()` (zero-based month). -/
def getMonth (t : Int) : Int := (civilFromDays t).2.1 - 1

/-- Models `date.getDate()` (one-based day of month). -/
def getDate (t : Int) : Int := (civilFromDays t).2.2

/-- Models `date.getDay()`: weekday with 0 = Sunday.  Day number 0 is
1970-01-01, a Thursday. -/
def getDay (t : Int) : Int := (t + 4) % 7

/-- Models `date.setDate(d)`: same year and month, day-of-month `d`
(with rollover). -/
def setDate (t d : Int) : Int := mkDate (getFullYear t) (getMonth t) d

/-- Models `date.setMonth(m)`: same year and day-of-month, month `m`
(with rollover). -/
def setMonth (t m : Int) : Int := mkDate (getFullYear t) m (getDate t)

/-- Models `date.setFullYear(y)`: same month and day-of-month, year `y`
(with rollover of Feb 29 in a non-leap year). -/
def setFullYear (t y : Int) : Int := mkDate y (getMonth t) (getDate t)

/-- Source helper `getDaysInMonth(year, month)`:
`new Date(year, month + 1, 0).getDate()` (zero-based `month`). -/
def getDaysInMonth (year month : Int) : Int := getDate (mkDate year (month + 1) 0)

example : getDaysInMonth 2024 1 = 29 := by decide
example : getDaysInMonth 2023 1 = 28 := by decide
example : getDay 19723 = 1 := by decide

/-- `mkDate` is additive in its day argument. -/
theorem mkDate_add (y m d k : Int) : mkDate y m (d + k) = mkDate y m d + k := by
  simp only [mkDate]
  ring

/-- Decoding `mkDate y m 1` gives the normalized year and month. -/
theorem civil_mkDate_one (y m : Int) :
    civilFromDays (mkDate y m 1) = (y + m / 12, m % 12 + 1, 1) := by
  have h : mkDate y m 1 = daysFromCivil (y + m / 12) (m % 12 + 1) 1 := by
    simp only [mkDate]
    ring
  rw [h]
  exact civilFromDays_daysFromCivil_one _ _ (by omega) (by omega)

/-- Rebuilding a day number from its own civil components is the
identity. -/
theorem mkDate_self (t : Int) :
    mkDate (getFullYear t) (getMonth t) (getDate t) = t := by
  have hr := civilFromDays_range t
  simp only [mkDate, getFullYear, getMonth, getDate]
  have e1 : ((civilFromDays t).2.1 - 1) / 12 = 0 := by omega
  have e2 : ((civilFromDays t).2.1 - 1) % 12 = (civilFromDays t).2.1 - 1 := by omega
  rw [e1, e2]
  have e3 : (civilFromDays t).1 + 0 = (civilFromDays t).1 := by ring
  have e4 : (civilFromDays t).2.1 - 1 + 1 = (civilFromDays t).2.1 := by ring
  rw [e3, e4]
  rw [← daysFromCivil_day]
  exact daysFromCivil_civilFromDays t

/-- Moving the day offset of an encoding at day 1 into the day-of-year
position of the encoding formula. -/
theorem encode_arg (yA mp d : Int) :
    yA / 400 * 146097 + ((yA - yA / 400 * 400) * 365 + (yA - yA / 400 * 400) / 4 -
      (yA - yA / 400 * 400) / 100 + ((153 * mp + 2) / 5 + 1 - 1)) - 719468 + (d - 1)
    = yA / 400 * 146097 + ((yA - yA / 400 * 400) * 365 + (yA - yA / 400 * 400) / 4 -
      (yA - yA / 400 * 400) / 100 + ((153 * mp + 2) / 5 + d - 1)) - 719468 := by ring

/-- `new Date(y, m, d)` lands in year `y` for any in-range zero-based
month and day-of-month, with February days capped at 29 (a Feb 29 in a
non-leap year rolls over to Mar 1, still inside year `y`). -/
theorem getFullYear_mkDate (y m d : Int) (hm1 : 0 ≤ m) (hm2 : m ≤ 11)
    (hd1 : 1 ≤ d) (hd2 : d ≤ 31) (hFeb : m = 1 → d ≤ 29) :
    getFullYear (mkDate y m d) = y := by
  simp only [getFullYear, mkDate]
  have e1 : m / 12 = 0 := by omega
  have e2 : m % 12 = m := by omega
  rw [e1, e2]
  have e3 : y + 0 = y := by ring
  rw [e3]
  by_cases hm : m + 1 ≤ 2
  · have hmp : (m + 1 + 9) % 12 = m + 10 := by omega
    simp only [daysFromCivil, if_pos hm, hmp]
    rw [encode_arg (y - 1) (m + 10) d]
    have key := decode_year (y - 1) (m + 10) d (by omega) (by omega) hd1 hd2
      (fun h => hFeb (by omega))
    rw [key]
    rw [if_pos (by omega : (10 : Int) ≤ m + 10)]
    ring
  · have hmp : (m + 1 + 9) % 12 = m - 2 := by omega
    simp only [daysFromCivil, if_neg hm, hmp]
    rw [encode_arg y (m - 2) d]
    have key := decode_year y (m - 2) d (by omega) (by omega) hd1 hd2
      (fun h => by omega)
    rw [key]
    rw [if_neg (by omega : ¬ (10 : Int) ≤ m - 2)]
    ring

/-- `date.setFullYear(y)` always lands in year `y`: the month and
day-of-month it reuses are decoded, so a February day is at most 29 and
at worst Feb 29 rolls over to Mar 1 of the same target year. -/
theorem getFullYear_setFullYear (t y : Int) : getFullYear (setFullYear t y) = y := by
  have hr := civilFromDays_range t
  have hfeb := civilFromDays_feb t
  simp only [setFullYear, getMonth, getDate]
  exact getFullYear_mkDate y _ _ (by omega) (by omega) (by omega) (by omega)
    (fun h => hfeb (by omega))

/-- `setDate` to the current day-of-month plus `k` adds `k` days. -/
theorem setDate_add (t k : Int) : setDate t (getDate t + k) = t + k := by
  simp only [setDate]
  rw [mkDate_add, mkDate_self]

/-- `setDate` to the current day-of-month minus `k` subtracts `k` days. -/
theorem setDate_sub (t k : Int) : setDate t (getDate t - k) = t - k := by
  have h : getDate t - k = getDate t + (-k) := by ring
  rw [h, setDate_add]
  ring

/-- Weekday values lie in `0..6`. -/
theorem getDay_bounds (t : Int) : 0 ≤ getDay t ∧ getDay t < 7 := by
  simp only [getDay]
  omega

/-- Stepping back by the weekday lands on a Sunday. -/
theorem getDay_align (t : Int) : getDay (t - getDay t) = 0 := by
  simp only [getDay]
  omega

/-- After a `setDate t 1` the day-of-month is 1. -/
theorem getDate_setDate_one (t : Int) : getDate (setDate t 1) = 1 := by
  have hr := civilFromDays_range t
  simp only [setDate, getDate]
  rw [civil_mkDate_one]

/-! ## ISO date strings

`toISO t` models `date.toISOString().split("T")[0]` for a date at
midnight: the `YYYY-MM-DD` rendering of the civil components, with the
year padded to four digits and month and day to two (the range used by
the application). -/

/-- Decimal digits of a nonnegative integer, most significant first. -/
def padNum (w : Nat) (n : Int) : String :=
  let ds : List Char := Nat.toDigits 10 n.toNat
  ⟨List.replicate (w - ds.length) (Char.ofNat 48) ++ ds⟩

def toISO (t : Int) : String :=
  padNum 4 (civilFromDays t).1 ++ "-" ++ padNum 2 (civilFromDays t).2.1
    ++ "-" ++ padNum 2 (civilFromDays t).2.2

example : toISO 19723 = "2024-01-01" := by decide
example : toISO 0 = "1970-01-01" := by decide

/-! ## The data model of the application -/

/-- `settings.frequency`. -/
inductive Frequency where
  | daily
  | weekly
  | monthly
  | yearly
deriving DecidableEq

/-- `settings.monthlyType`. -/
inductive MonthlyType where
  | onDay
  | onThe
deriving DecidableEq

/-- The `week` field of `monthlyOnThe`: a numeric ordinal or the literal
string `last`. -/
inductive WeekOrd where
  | nth (n : Int)
  | last
deriving DecidableEq

/-- `settings.monthlyOnThe`: ordinal week and target weekday. -/
structure MonthlyOnThe where
  week : WeekOrd
  day : Int

/-- The components of a parsed `YYYY-MM-DD` date string (`month` is the
one-based month of the string). -/
structure CivilDate where
  year : Int
  month : Int
  day : Int

/-- Day number of the midnight of a parsed date string, as produced by
`new Date(s + "T00:00:00")`. -/
def CivilDate.toDayNumber (cd : CivilDate) : Int :=
  daysFromCivil cd.year cd.month cd.day

/-- The `RecurringSettings` record.  `weeklyDays` is the selected-weekday
lookup (an absent key reads as `false`); `startDate = none` models an
absent or empty start date string and `some cd` a valid date string with
components `cd`; `endDate` likewise models `null` or empty versus a
valid date string. -/
structure RecurringSettings where
  frequency : Frequency
  interval : Int
  weeklyDays : Int → Bool
  monthlyType : MonthlyType
  monthlyOnDay : Int
  monthlyOnThe : MonthlyOnThe
  startDate : Option CivilDate
  endDate : Option CivilDate

/-! ## The JavaScript collections used by the function

`dates` is a `Set<string>`: insertion-ordered and duplicate free.  The
final `Array.from(dates).sort()` is the default lexicographic string
sort; on a duplicate-free list every correct sort returns the unique
sorted permutation, modeled here by insertion sort over the
lexicographic order on `String`. -/

def setAdd (l : List String) (s : String) : List String :=
  if s ∈ l then l else l ++ [s]

/-- Lexicographic comparison of character lists by code point, the
order the default JavaScript string sort uses (date strings are
ASCII, where code units and code points agree). -/
def charsLe : List Char → List Char → Bool
  | [], _ => true
  | _ :: _, [] => false
  | c :: cs, d :: ds =>
      if c.toNat < d.toNat then true
      else if d.toNat < c.toNat then false
      else charsLe cs ds

/-- Strict lexicographic comparison of character lists. -/
def charsLt : List Char → List Char → Bool
  | [], [] => false
  | [], _ :: _ => true
  | _ :: _, [] => false
  | c :: cs, d :: ds =>
      if c.toNat < d.toNat then true
      else if d.toNat < c.toNat then false
      else charsLt cs ds

/-- Lexicographic order on strings. -/
def strLe (a b : String) : Bool := charsLe a.data b.data

/-- Strict lexicographic order on strings. -/
def strLt (a b : String) : Bool := charsLt a.data b.data

/-- Insert into a lexicographically sorted list. -/
def insertSorted (s : String) : List String → List String
  | [] => [s]
  | t :: ts => if strLe s t then s :: t :: ts else t :: insertSorted s ts

def sortStrings (l : List String) : List String := l.foldr insertSorted []

/-! ## The core `calculateRecurringDates` -/

/-- Safety bound of the source: `const maxIterations = 2000`. -/
def maxIterations : Nat := 2000

/-- One pass of the inner 7-day loop of the weekly arm: for each day,
emit it when its weekday is selected and it lies in
`[startNum, endD]`, then advance the cursor one day via
`current.setDate(current.getDate() + 1)`. -/
def weeklyScan : Nat → (Int → Bool) → Int → Int → Int → List String →
    Int × List String
  | 0, _, _, _, current, dates => (current, dates)
  | n + 1, wd, startNum, endD, current, dates =>
      let dates1 : List String :=
        if wd (getDay current) = true ∧ startNum ≤ current ∧ current ≤ endD then
          setAdd dates (toISO current)
        else dates
      weeklyScan n wd startNum endD (setDate current (getDate current + 1)) dates1

/-- The monthly cursor advance of the source:
`current.setMonth(current.getMonth() + interval); current.setDate(1)`. -/
def monthlyAdvance (t interval : Int) : Int :=
  setDate (setMonth t (getMonth t + interval)) 1

/-- JavaScript array indexing `l[i]`: `undefined` outside `0..len-1`. -/
def listGetInt (l : List Int) (i : Int) : Option Int :=
  if 0 ≤ i then l[i.toNat]? else none

/-- The source `daysInMonthArr`: the dates `1 .. daysInMonth` of the
month (`month` zero-based). -/
def daysInMonthArr (y m : Int) : List Int :=
  (List.range (getDaysInMonth y m).toNat).map
    (fun i : Nat => mkDate y m ((i : Int) + 1))

/-- The source `matchingDays`: the days of the month falling on the
target weekday. -/
def matchingDays (y m day : Int) : List Int :=
  (daysInMonthArr y m).filter (fun d0 => getDay d0 == day)

/-- The target date of the `onThe` arm: the `week`-th matching day
(1-indexed) or the last one, `none` when the index is out of range
(JavaScript `undefined`). -/
def onTheTarget (y m : Int) (w : WeekOrd) (day : Int) : Option Int :=
  match w with
  | .last => (matchingDays y m day)[(matchingDays y m day).length - 1]?
  | .nth n => listGetInt (matchingDays y m day) (n - 1)

/-- The body of one iteration of the `while` loop, returning the updated
date set and cursor.  `iterations` is the counter value after the
`iterations++` at the top of the loop body. -/
def calcStep (s : RecurringSettings) (startNum endD : Int) (iterations : Nat)
    (current : Int) (dates : List String) : List String × Int :=
  match s.frequency with
  | .daily =>
      (setAdd dates (toISO current), setDate current (getDate current + s.interval))
  | .weekly =>
      let cur0 : Int :=
        if iterations = 1 then setDate current (getDate current - getDay startNum)
        else current
      let p := weeklyScan 7 s.weeklyDays startNum endD cur0 dates
      (p.2, setDate p.1 (getDate p.1 + (s.interval - 1) * 7))
  | .monthly =>
      let monthDate : Option Int :=
        match s.monthlyType with
        | .onDay => some (mkDate (getFullYear current) (getMonth current) s.monthlyOnDay)
        | .onThe =>
            onTheTarget (getFullYear current) (getMonth current)
              s.monthlyOnThe.week s.monthlyOnThe.day
      let dates1 : List String :=
        match monthDate with
        | some md =>
            if startNum ≤ md ∧ md ≤ endD then setAdd dates (toISO md) else dates
        | none => dates
      (dates1, monthlyAdvance current s.interval)
  | .yearly =>
      let ann : Int := mkDate (getFullYear current) (getMonth startNum) (getDate startNum)
      let dates1 : List String :=
        if startNum ≤ ann ∧ ann ≤ endD then setAdd dates (toISO ann) else dates
      (dates1, setFullYear current (getFullYear current + s.interval))

/-- The `while (current <= finalEndDate && iterations < maxIterations)`
loop.  Returns the accumulated date set and the final iteration count.
The loop is driven by the remaining iteration budget
`fuel = maxIterations - iterations`, so the guard `iterations <
maxIterations` of the source is exactly `fuel > 0`: the `fuel = 0` arm is
the iteration cap of the source firing, and the `fuel + 1` arm with
`current > endD` is the cursor passing the effective end date. -/
def calcLoop (s : RecurringSettings) (startNum endD : Int) :
    Nat → Nat → Int → List String → List String × Nat
  | 0, iterations, _, dates => (dates, iterations)
  | fuel + 1, iterations, current, dates =>
      if current ≤ endD then
        let p := calcStep s startNum endD (iterations + 1) current dates
        calcLoop s startNum endD fuel (iterations + 1) p.2 p.1
      else (dates, iterations)

/-- The effective end day: the parsed `endDate` at end of day, or
`new Date(startYear + 5, 0, 1)` when the end date is absent. -/
def calcEnd (startNum : Int) (endDate : Option CivilDate) : Int :=
  match endDate with
  | some ed => ed.toDayNumber
  | none => mkDate (getFullYear startNum + 5) 0 1

/-- The full `calculateRecurringDates`: empty when the start date is
absent or empty, otherwise the sorted accumulated date set of the
bounded walk. -/
def calculateRecurringDates (s : RecurringSettings) : List String :=
  match s.startDate with
  | none => []
  | some sd =>
      sortStrings
        (calcLoop s sd.toDayNumber (calcEnd sd.toDayNumber s.endDate)
          maxIterations 0 sd.toDayNumber []).1

/-- The number of loop iterations `calculateRecurringDates` performs. -/
def calcIterations (s : RecurringSettings) : Nat :=
  match s.startDate with
  | none => 0
  | some sd =>
      (calcLoop s sd.toDayNumber (calcEnd sd.toDayNumber s.endDate)
        maxIterations 0 sd.toDayNumber []).2

/-! ## Lemmas about the set and sort operations -/

theorem mem_setAdd {l : List String} {s x : String} :
    x ∈ setAdd l s ↔ x ∈ l ∨ x = s := by
  simp only [setAdd]
  split_ifs with h
  · constructor
    · exact Or.inl
    · rintro (hx | rfl)
      · exact hx
      · exact h
  · simp [List.mem_append]

theorem nodup_setAdd {l : List String} (h : l.Nodup) (s : String) :
    (setAdd l s).Nodup := by
  simp only [setAdd]
  split_ifs with hs
  · exact h
  · simp [List.nodup_append, h, hs]

theorem charsLe_total (xs ys : List Char) :
    charsLe xs ys = true ∨ charsLe ys xs = true := by
  induction xs generalizing ys with
  | nil => left; rfl
  | cons c cs ih =>
      cases ys with
      | nil => right; rfl
      | cons d ds =>
          simp only [charsLe]
          rcases Nat.lt_trichotomy c.toNat d.toNat with h | h | h
          · left; simp [h]
          · have h2 : ¬ c.toNat < d.toNat := by omega
            have h3 : ¬ d.toNat < c.toNat := by omega
            simp only [if_neg h2, if_neg h3]
            exact ih ds
          · right; simp [h]

theorem charsLe_trans {xs ys zs : List Char} (h1 : charsLe xs ys = true)
    (h2 : charsLe ys zs = true) : charsLe xs zs = true := by
  induction xs generalizing ys zs with
  | nil => rfl
  | cons c cs ih =>
      cases ys with
      | nil => simp [charsLe] at h1
      | cons d ds =>
          cases zs with
          | nil => simp [charsLe] at h2
          | cons e es =>
              simp only [charsLe] at h1 h2 ⊢
              split_ifs at h1 h2 ⊢ with g1 g2 g3 g4 g5 g6 <;>
                first
                  | rfl
                  | omega
                  | (exact ih h1 h2)
                  | (simp at h1)
                  | (simp at h2)

theorem charsLt_of_le_of_ne {xs ys : List Char} (h1 : charsLe xs ys = true)
    (h2 : xs ≠ ys) : charsLt xs ys = true := by
  induction xs generalizing ys with
  | nil =>
      cases ys with
      | nil => exact absurd rfl h2
      | cons d ds => rfl
  | cons c cs ih =>
      cases ys with
      | nil => simp [charsLe] at h1
      | cons d ds =>
          simp only [charsLe] at h1
          simp only [charsLt]
          by_cases g1 : c.toNat < d.toNat
          · rw [if_pos g1]
          · by_cases g2 : d.toNat < c.toNat
            · rw [if_neg g1, if_pos g2] at h1
              exact absurd h1 (by simp)
            · rw [if_neg g1, if_neg g2] at h1
              rw [if_neg g1, if_neg g2]
              have hn : c.toNat = d.toNat := by omega
              have hc : c = d := Char.eq_of_val_eq (UInt32.ext hn)
              refine ih h1 (fun he => h2 ?_)
              rw [hc, he]

theorem strLt_of_le_of_ne {a b : String} (h1 : strLe a b = true) (h2 : a ≠ b) :
    strLt a b = true := by
  refine charsLt_of_le_of_ne h1 (fun he => h2 ?_)
  cases a
  cases b
  simp only at he
  rw [he]

theorem insertSorted_perm (s : String) (l : List String) :
    List.Perm (insertSorted s l) (s :: l) := by
  induction l with
  | nil => rfl
  | cons t ts ih =>
      simp only [insertSorted]
      split_ifs with h
      · rfl
      · exact ((ih.cons t).trans (List.Perm.swap s t ts))

theorem sortStrings_perm (l : List String) : List.Perm (sortStrings l) l := by
  induction l with
  | nil => rfl
  | cons s ts ih =>
      simp only [sortStrings, List.foldr_cons]
      exact (insertSorted_perm s _).trans (ih.cons s)

theorem mem_sortStrings {l : List String} {x : String} :
    x ∈ sortStrings l ↔ x ∈ l :=
  (sortStrings_perm l).mem_iff

theorem insertSorted_sorted (s : String) (l : List String)
    (h : l.Pairwise (fun a b => strLe a b = true)) :
    (insertSorted s l).Pairwise (fun a b => strLe a b = true) := by
  induction l with
  | nil => simp [insertSorted]
  | cons t ts ih =>
      simp only [insertSorted]
      rcases List.pairwise_cons.1 h with ⟨ht, hts⟩
      split_ifs with hle
      · refine List.pairwise_cons.2 ⟨?_, h⟩
        intro x hx
        rcases List.mem_cons.1 hx with rfl | hx
        · exact hle
        · exact charsLe_trans hle (ht x hx)
      · have hts2 := ih hts
        refine List.pairwise_cons.2 ⟨?_, hts2⟩
        intro x hx
        have hx2 := (insertSorted_perm s ts).mem_iff.1 hx
        rcases List.mem_cons.1 hx2 with rfl | hx2
        · rcases charsLe_total t.data x.data with hl | hl
          · exact hl
          · exact absurd hl hle
        · exact ht x hx2

theorem sortStrings_sorted (l : List String) :
    (sortStrings l).Pairwise (fun a b => strLe a b = true) := by
  induction l with
  | nil => simp [sortStrings]
  | cons s ts ih => exact insertSorted_sorted s _ ih

/-! ## Lemmas about one pass of the weekly scan -/

theorem weeklyScan_cursor (n : Nat) : ∀ (wd : Int → Bool) (startNum endD cur : Int)
    (dates : List String),
    (weeklyScan n wd startNum endD cur dates).1 = cur + n := by
  induction n with
  | zero => intro wd startNum endD cur dates; simp [weeklyScan]
  | succ k ih =>
      intro wd startNum endD cur dates
      simp only [weeklyScan]
      rw [ih, setDate_add]
      push_cast
      ring

theorem weeklyScan_mem (n : Nat) : ∀ (wd : Int → Bool) (startNum endD cur : Int)
    (dates : List String) (str : String),
    str ∈ (weeklyScan n wd startNum endD cur dates).2 ↔
      str ∈ dates ∨ ∃ j : Nat, j < n ∧ wd (getDay (cur + (j : Int))) = true ∧
        startNum ≤ cur + (j : Int) ∧ cur + (j : Int) ≤ endD ∧
        str = toISO (cur + (j : Int)) := by
  induction n with
  | zero =>
      intro wd startNum endD cur dates str
      simp [weeklyScan]
  | succ k ih =>
      intro wd startNum endD cur dates str
      simp only [weeklyScan]
      rw [ih, setDate_add]
      constructor
      · rintro (h1 | ⟨j, hj, h2, h3, h4, h5⟩)
        · split_ifs at h1 with hc
          · rcases mem_setAdd.1 h1 with hx | rfl
            · exact Or.inl hx
            · have hc0 : cur + ((0 : Nat) : Int) = cur := by push_cast; ring
              refine Or.inr ⟨0, by omega, ?_, ?_, ?_, ?_⟩ <;> rw [hc0]
              · exact hc.1
              · exact hc.2.1
              · exact hc.2.2
          · exact Or.inl h1
        · refine Or.inr ⟨j + 1, by omega, ?_, ?_, ?_, ?_⟩ <;>
            · have hcast : cur + ((j + 1 : Nat) : Int) = cur + 1 + (j : Int) := by
                push_cast; ring
              rw [hcast]
              assumption
      · rintro (h1 | ⟨j, hj, h2, h3, h4, h5⟩)
        · left
          split_ifs with hc
          · exact mem_setAdd.2 (Or.inl h1)
          · exact h1
        · rcases Nat.eq_zero_or_pos j with rfl | hpos
          · left
            have hc0 : cur + ((0 : Nat) : Int) = cur := by push_cast; ring
            rw [hc0] at h2 h3 h4 h5
            have hc : wd (getDay cur) = true ∧ startNum ≤ cur ∧ cur ≤ endD :=
              ⟨h2, h3, h4⟩
            rw [if_pos hc]
            exact mem_setAdd.2 (Or.inr h5)
          · right
            refine ⟨j - 1, by omega, ?_, ?_, ?_, ?_⟩ <;>
              · have hcast : cur + 1 + ((j - 1 : Nat) : Int) = cur + (j : Int) := by
                  have : ((j - 1 : Nat) : Int) = (j : Int) - 1 := by
                    omega
                  rw [this]; ring
                rw [hcast]
                assumption

theorem weeklyScan_nodup (n : Nat) : ∀ (wd : Int → Bool) (startNum endD cur : Int)
    (dates : List String), dates.Nodup →
    (weeklyScan n wd startNum endD cur dates).2.Nodup := by
  induction n with
  | zero => intro wd startNum endD cur dates h; simpa [weeklyScan] using h
  | succ k ih =>
      intro wd startNum endD cur dates h
      simp only [weeklyScan]
      apply ih
      split_ifs with hc
      · exact nodup_setAdd h _
      · exact h

/-! ## Invariants of the main loop -/

/-- The bound predicate of claim C1: the string is the ISO rendering of
a day inside the inclusive range. -/
def InRange (startNum endD : Int) (str : String) : Prop :=
  ∃ t : Int, startNum ≤ t ∧ t ≤ endD ∧ str = toISO t

theorem calcStep_nodup (s : RecurringSettings) (startNum endD : Int)
    (iterations : Nat) (current : Int) {dates : List String} (h : dates.Nodup) :
    (calcStep s startNum endD iterations current dates).1.Nodup := by
  cases hf : s.frequency <;> simp only [calcStep, hf]
  · exact nodup_setAdd h _
  · exact weeklyScan_nodup 7 _ _ _ _ _ h
  · cases s.monthlyType <;> simp only
    · split_ifs <;> [exact nodup_setAdd h _; exact h]
    · cases honthe : onTheTarget (getFullYear current) (getMonth current)
          s.monthlyOnThe.week s.monthlyOnThe.day <;> simp only
      · exact h
      · split_ifs <;> [exact nodup_setAdd h _; exact h]
  · split_ifs <;> [exact nodup_setAdd h _; exact h]

theorem calcLoop_nodup (s : RecurringSettings) (startNum endD : Int) :
    ∀ (fuel iterations : Nat) (current : Int) (dates : List String), dates.Nodup →
      (calcLoop s startNum endD fuel iterations current dates).1.Nodup := by
  intro fuel
  induction fuel with
  | zero => intro it cur dates h; exact h
  | succ f ih =>
      intro it cur dates h
      simp only [calcLoop]
      split_ifs with hg
      · exact ih _ _ _ (calcStep_nodup s startNum endD (it + 1) cur h)
      · exact h

theorem calcStep_bounds (s : RecurringSettings) (startNum endD : Int)
    (iterations : Nat) (current : Int) (dates : List String)
    (hd : ∀ str ∈ dates, InRange startNum endD str)
    (hcur : s.frequency = .daily → startNum ≤ current)
    (hguard : current ≤ endD) :
    ∀ str ∈ (calcStep s startNum endD iterations current dates).1,
      InRange startNum endD str := by
  cases hf : s.frequency <;> simp only [calcStep, hf]
  · intro str hstr
    rcases mem_setAdd.1 hstr with hx | rfl
    · exact hd str hx
    · exact ⟨current, hcur hf, hguard, rfl⟩
  · intro str hstr
    rcases (weeklyScan_mem 7 _ _ _ _ _ _).1 hstr with hx | ⟨j, _, _, h3, h4, h5⟩
    · exact hd str hx
    · exact ⟨_, h3, h4, h5⟩
  · cases s.monthlyType <;> simp only
    · intro str hstr
      split_ifs at hstr with hc
      · rcases mem_setAdd.1 hstr with hx | rfl
        · exact hd str hx
        · exact ⟨_, hc.1, hc.2, rfl⟩
      · exact hd str hstr
    · cases honthe : onTheTarget (getFullYear current) (getMonth current)
          s.monthlyOnThe.week s.monthlyOnThe.day <;> simp only
      · exact hd
      · intro str hstr
        split_ifs at hstr with hc
        · rcases mem_setAdd.1 hstr with hx | rfl
          · exact hd str hx
          · exact ⟨_, hc.1, hc.2, rfl⟩
        · exact hd str hstr
  · intro str hstr
    split_ifs at hstr with hc
    · rcases mem_setAdd.1 hstr with hx | rfl
      · exact hd str hx
      · exact ⟨_, hc.1, hc.2, rfl⟩
    · exact hd str hstr

theorem calcStep_cursor_daily (s : RecurringSettings) (startNum endD : Int)
    (iterations : Nat) (current : Int) (dates : List String)
    (hf : s.frequency = .daily) (hint : 1 ≤ s.interval)
    (hcur : startNum ≤ current) :
    startNum ≤ (calcStep s startNum endD iterations current dates).2 := by
  simp only [calcStep, hf]
  rw [setDate_add]
  omega

theorem calcLoop_bounds (s : RecurringSettings) (startNum endD : Int)
    (hint : 1 ≤ s.interval) :
    ∀ (fuel iterations : Nat) (current : Int) (dates : List String),
      (s.frequency = .daily → startNum ≤ current) →
      (∀ str ∈ dates, InRange startNum endD str) →
      ∀ str ∈ (calcLoop s startNum endD fuel iterations current dates).1,
        InRange startNum endD str := by
  intro fuel
  induction fuel with
  | zero => intro it cur dates hcur hd; exact hd
  | succ f ih =>
      intro it cur dates hcur hd
      simp only [calcLoop]
      split_ifs with hg
      · refine ih _ _ _ ?_ ?_
        · intro hf
          exact calcStep_cursor_daily s startNum endD (it + 1) cur dates hf hint
            (hcur hf)
        · exact calcStep_bounds s startNum endD (it + 1) cur dates hd hcur hg
      · exact hd

theorem calcLoop_count (s : RecurringSettings) (startNum endD : Int) :
    ∀ (fuel iterations : Nat) (current : Int) (dates : List String),
      (calcLoop s startNum endD fuel iterations current dates).2 ≤ iterations + fuel := by
  intro fuel
  induction fuel with
  | zero => intro it cur dates; exact Nat.le_refl it
  | succ f ih =>
      intro it cur dates
      simp only [calcLoop]
      split_ifs with hg
      · exact le_trans (ih _ _ _) (by omega)
      · omega

/-! ## The surrounding application state

JavaScript objects keyed by date string are modeled as insertion-ordered
association lists without duplicate keys; `objSet` is a single keyed
assignment, `objSpread base upd` the object literal spreading `base`
then `upd`, and `objLookup` property access. -/

/-- An event assignment `{ typeId, time }` attached to one date key. -/
structure EventAssignment where
  typeId : String
  time : String
deriving DecidableEq

/-- The `Events` dictionary keyed by `YYYY-MM-DD` strings. -/
abbrev Events := List (String × EventAssignment)

/-- A custom event type `{ id, title, color }`. -/
structure EventType where
  id : String
  title : String
  color : String

/-- The saved schedule record passed to `onSave`. -/
structure SavedData where
  settings : RecurringSettings
  recurringDates : List String
  events : Events
  customEventTypes : List EventType

/-- The top level state of the `App` component that the handlers below
update: the committed saved data, the master event map, and the
event-type registry. -/
structure AppState where
  savedData : Option SavedData
  events : Events
  customEventTypes : List EventType

def objSet (m : Events) (k : String) (v : EventAssignment) : Events :=
  if m.any (fun p => p.1 == k) then
    m.map (fun p => if p.1 == k then (k, v) else p)
  else m ++ [(k, v)]

def objSpread (base upd : Events) : Events :=
  upd.foldl (fun acc p => objSet acc p.1 p.2) base

def objLookup (m : Events) (k : String) : Option EventAssignment :=
  (m.find? (fun p => p.1 == k)).map (fun p => p.2)

/-- Insertion-ordered de-duplication, modeling
`[...new Set([...a, ...b])]`. -/
def dedupStrings (l : List String) : List String :=
  l.foldl setAdd []

/-- The `handleSave` callback of the `App` component: merge the new
per-date events over the existing ones (new entries win on a key
collision), union the recurring dates, and commit the result to both
the `events` state and the saved data. -/
def handleSave (st : AppState) (data : SavedData) : AppState :=
  let mergedEvents : Events := objSpread st.events data.events
  { savedData := some
      { settings := data.settings
        recurringDates :=
          dedupStrings ((match st.savedData with
            | some sd => sd.recurringDates
            | none => []) ++ data.recurringDates)
        events := mergedEvents
        customEventTypes := data.customEventTypes }
    events := mergedEvents
    customEventTypes := data.customEventTypes }

/-- The `deleteEventType` handler of the `App` component: drop the type
from the registry, delete every per-date assignment whose `typeId` is
the deleted id, and mirror both removals into the saved data when it
exists. -/
def deleteEventType (st : AppState) (tid : String) : AppState :=
  let newEvents : Events := st.events.filter (fun p => p.2.typeId != tid)
  { customEventTypes := st.customEventTypes.filter (fun et => et.id != tid)
    events := newEvents
    savedData := st.savedData.map (fun sd =>
      { sd with
        events := newEvents
        customEventTypes := sd.customEventTypes.filter (fun et => et.id != tid) }) }

/-! ## Lemmas about the object operations -/

theorem objLookup_nil (k : String) : objLookup [] k = none := rfl

theorem objLookup_eq_none {m : Events} {k : String}
    (h : k ∉ m.map Prod.fst) : objLookup m k = none := by
  induction m with
  | nil => rfl
  | cons p rest ih =>
      simp only [List.map_cons, List.mem_cons] at h
      push_neg at h
      simp only [objLookup, List.find?_cons]
      have hb : (p.1 == k) = false := by
        simp only [beq_eq_false_iff_ne]
        exact fun he => h.1 he.symm
      rw [hb]
      exact ih h.2

theorem find?_cons_pos {a : Type} (q : a → Bool) (x : a) (l : List a)
    (h : q x = true) : List.find? q (x :: l) = some x :=
  List.find?_cons_of_pos l h

theorem find?_cons_neg {a : Type} (q : a → Bool) (x : a) (l : List a)
    (h : q x = false) : List.find? q (x :: l) = List.find? q l :=
  List.find?_cons_of_neg l (by simp [h])

theorem find?_set_map_self (m : Events) (k : String) (v : EventAssignment)
    (h : m.any (fun p => p.1 == k) = true) :
    List.find? (fun q => q.1 == k)
        (m.map (fun p => if (p.1 == k) = true then (k, v) else p)) = some (k, v) := by
  induction m with
  | nil => simp at h
  | cons p rest ih =>
      simp only [List.any_cons, Bool.or_eq_true] at h
      by_cases hp : (p.1 == k) = true
      · simp only [List.map_cons, if_pos hp]
        exact find?_cons_pos (fun q => q.1 == k) (k, v) _ (by simp)
      · have hp2 : (p.1 == k) = false := by simpa using hp
        simp only [List.map_cons, if_neg hp]
        rw [find?_cons_neg (fun q => q.1 == k) p _ hp2]
        rcases h with h | h
        · exact absurd h hp
        · exact ih h

theorem find?_set_map_ne (m : Events) (k x : String) (v : EventAssignment)
    (hx : x ≠ k) :
    List.find? (fun q => q.1 == x)
        (m.map (fun p => if (p.1 == k) = true then (k, v) else p))
      = List.find? (fun q => q.1 == x) m := by
  induction m with
  | nil => rfl
  | cons p rest ih =>
      by_cases hp : (p.1 == k) = true
      · have hpx : (p.1 == x) = false := by
          have hpk : p.1 = k := by simpa using hp
          rw [hpk]
          simpa using fun he => hx he.symm
        have hkx : ((k, v).1 == x) = false := by
          simpa using fun he => hx he.symm
        simp only [List.map_cons, if_pos hp]
        rw [find?_cons_neg (fun q => q.1 == x) (k, v) _ hkx,
          find?_cons_neg (fun q => q.1 == x) p _ hpx]
        exact ih
      · by_cases hq : (p.1 == x) = true
        · simp only [List.map_cons, if_neg hp]
          rw [find?_cons_pos (fun q => q.1 == x) p _ hq,
            find?_cons_pos (fun q => q.1 == x) p _ hq]
        · have hq2 : (p.1 == x) = false := by simpa using hq
          simp only [List.map_cons, if_neg hp]
          rw [find?_cons_neg (fun q => q.1 == x) p _ hq2,
            find?_cons_neg (fun q => q.1 == x) p _ hq2]
          exact ih

theorem objLookup_objSet_self (m : Events) (k : String) (v : EventAssignment) :
    objLookup (objSet m k v) k = some v := by
  simp only [objSet]
  split_ifs with h
  · rw [objLookup, find?_set_map_self m k v h]
    rfl
  · simp only [objLookup, List.find?_append]
    have h1 : List.find? (fun q => q.1 == k) m = none := by
      rw [List.find?_eq_none]
      intro p hp hpk
      exact h (List.any_eq_true.2 ⟨p, hp, hpk⟩)
    have h2 : List.find? (fun q => q.1 == k) [(k, v)] = some (k, v) :=
      find?_cons_pos (fun q => q.1 == k) (k, v) [] (by simp)
    rw [h1, h2]
    rfl

theorem objLookup_objSet_ne (m : Events) (k : String) (v : EventAssignment)
    (x : String) (hx : x ≠ k) : objLookup (objSet m k v) x = objLookup m x := by
  have hkx : ((k, v).1 == x) = false := by
    simpa using fun he => hx he.symm
  simp only [objSet]
  split_ifs with h
  · simp only [objLookup, find?_set_map_ne m k x v hx]
  · simp only [objLookup, List.find?_append]
    have h2 : List.find? (fun q => q.1 == x) [(k, v)] = none := by
      rw [List.find?_eq_none]
      intro p hp
      simp only [List.mem_singleton] at hp
      rw [hp]
      simp only [hkx]
      exact fun hc => by simp at hc
    rw [h2, Option.or_none]

theorem objLookup_objSpread (base upd : Events)
    (hnd : (upd.map Prod.fst).Nodup) (k : String) :
    objLookup (objSpread base upd) k
      = (objLookup upd k).or (objLookup base k) := by
  induction upd generalizing base with
  | nil => simp [objSpread, objLookup]
  | cons p rest ih =>
      simp only [List.map_cons, List.nodup_cons] at hnd
      have hstep : objSpread base (p :: rest) = objSpread (objSet base p.1 p.2) rest :=
        rfl
      rw [hstep, ih (objSet base p.1 p.2) hnd.2]
      by_cases hk : k = p.1
      · subst hk
        have h1 : objLookup rest p.1 = none := objLookup_eq_none hnd.1
        have h2 : objLookup (p :: rest) p.1 = some p.2 := by
          simp only [objLookup]
          rw [find?_cons_pos (fun q => q.1 == p.1) p _ (by simp)]
          rfl
        rw [h1, h2, objLookup_objSet_self, Option.none_or]
        rfl
      · have h2 : objLookup (p :: rest) k = objLookup rest k := by
          simp only [objLookup]
          rw [find?_cons_neg (fun q => q.1 == k) p _
            (by simpa using fun he => hk he.symm)]
        rw [h2, objLookup_objSet_ne base p.1 p.2 k hk]

theorem objLookup_filter_typeId (tid : String) :
    ∀ (m : Events), (m.map Prod.fst).Nodup → ∀ k : String,
    objLookup (m.filter (fun p => p.2.typeId != tid)) k
      = (objLookup m k).bind (fun a => if a.typeId = tid then none else some a) := by
  intro m
  induction m with
  | nil => intro _ k; rfl
  | cons p rest ih =>
      intro hnd k
      simp only [List.map_cons, List.nodup_cons] at hnd
      by_cases hk : (p.1 == k) = true
      · have hpk : p.1 = k := by simpa using hk
        have hl : objLookup (p :: rest) k = some p.2 := by
          simp only [objLookup]
          rw [find?_cons_pos (fun q => q.1 == k) p _ hk]
          rfl
        rw [hl]
        by_cases ht : p.2.typeId = tid
        · have hf : (p.2.typeId != tid) = false := by simp [ht]
          have hfil : List.filter (fun p => p.2.typeId != tid) (p :: rest)
              = List.filter (fun p => p.2.typeId != tid) rest := by
            simp [List.filter_cons, hf]
          rw [hfil]
          have hnone :
              objLookup (List.filter (fun p => p.2.typeId != tid) rest) k = none := by
            apply objLookup_eq_none
            intro hmem
            rcases List.mem_map.1 hmem with ⟨q, hq, hq2⟩
            exact hnd.1 (hpk ▸ List.mem_map.2 ⟨q, (List.mem_filter.1 hq).1, hq2⟩)
          rw [hnone]
          simp [ht]
        · have hf : (p.2.typeId != tid) = true := by simp [ht]
          have hfil : List.filter (fun p => p.2.typeId != tid) (p :: rest)
              = p :: List.filter (fun p => p.2.typeId != tid) rest := by
            simp [List.filter_cons, hf]
          rw [hfil]
          have hl2 : objLookup (p :: List.filter (fun p => p.2.typeId != tid) rest) k
              = some p.2 := by
            simp only [objLookup]
            rw [find?_cons_pos (fun q => q.1 == k) p _ hk]
            rfl
          rw [hl2]
          simp [ht]
      · have hk2 : (p.1 == k) = false := by simpa using hk
        have hl : objLookup (p :: rest) k = objLookup rest k := by
          simp only [objLookup]
          rw [find?_cons_neg (fun q => q.1 == k) p _ hk2]
        rw [hl]
        by_cases ht : (p.2.typeId != tid) = true
        · have hfil : List.filter (fun p => p.2.typeId != tid) (p :: rest)
              = p :: List.filter (fun p => p.2.typeId != tid) rest := by
            simp [List.filter_cons, ht]
          rw [hfil]
          have hl2 : objLookup (p :: List.filter (fun p => p.2.typeId != tid) rest) k
              = objLookup (List.filter (fun p => p.2.typeId != tid) rest) k := by
            simp only [objLookup]
            rw [find?_cons_neg (fun q => q.1 == k) p _ hk2]
          rw [hl2]
          exact ih hnd.2 k
        · have hf : (p.2.typeId != tid) = false := by simpa using ht
          have hfil : List.filter (fun p => p.2.typeId != tid) (p :: rest)
              = List.filter (fun p => p.2.typeId != tid) rest := by
            simp [List.filter_cons, hf]
          rw [hfil]
          exact ih hnd.2 k

/-! ## Concrete settings used by the claims -/

def exampleDaily : RecurringSettings :=
  { frequency := .daily, interval := 1, weeklyDays := fun _ => false,
    monthlyType := .onDay, monthlyOnDay := 1,
    monthlyOnThe := { week := .nth 1, day := 0 },
    startDate := some ⟨2024, 1, 1⟩, endDate := some ⟨2024, 1, 3⟩ }

def exampleWeekly : RecurringSettings :=
  { frequency := .weekly, interval := 1,
    weeklyDays := fun d => d == 1 || d == 3,
    monthlyType := .onDay, monthlyOnDay := 1,
    monthlyOnThe := { week := .nth 1, day := 0 },
    startDate := some ⟨2024, 1, 1⟩, endDate := some ⟨2024, 1, 14⟩ }

def exampleLastFriday : RecurringSettings :=
  { frequency := .monthly, interval := 1, weeklyDays := fun _ => false,
    monthlyType := .onThe, monthlyOnDay := 1,
    monthlyOnThe := { week := .last, day := 5 },
    startDate := some ⟨2024, 1, 1⟩, endDate := some ⟨2024, 3, 31⟩ }

def exampleFifthSunday : RecurringSettings :=
  { frequency := .monthly, interval := 1, weeklyDays := fun _ => false,
    monthlyType := .onThe, monthlyOnDay := 1,
    monthlyOnThe := { week := .nth 5, day := 0 },
    startDate := some ⟨2024, 1, 1⟩, endDate := some ⟨2024, 4, 30⟩ }

def exampleYearly : RecurringSettings :=
  { frequency := .yearly, interval := 1, weeklyDays := fun _ => false,
    monthlyType := .onDay, monthlyOnDay := 1,
    monthlyOnThe := { week := .nth 1, day := 0 },
    startDate := some ⟨2023, 2, 28⟩, endDate := some ⟨2025, 3, 1⟩ }

/-- Monthly schedule starting on Jan 31: the first cursor advance rolls
past February. -/
def exampleMonthlySkip : RecurringSettings :=
  { frequency := .monthly, interval := 1, weeklyDays := fun _ => false,
    monthlyType := .onDay, monthlyOnDay := 1,
    monthlyOnThe := { week := .nth 1, day := 0 },
    startDate := some ⟨2024, 1, 31⟩, endDate := some ⟨2024, 12, 31⟩ }

def exampleType : EventType :=
  { id := "evt_1", title := "Meeting", color := "bg-blue-500" }

def exampleAppState : AppState :=
  { savedData := none
    events := [("2024-01-01", { typeId := "evt_1", time := "09:00" })]
    customEventTypes := [exampleType] }

def exampleSavedData : SavedData :=
  { settings := exampleDaily
    recurringDates := ["2024-01-02"]
    events := [("2024-01-02", { typeId := "evt_1", time := "10:00" })]
    customEventTypes := [exampleType] }

set_option maxRecDepth 8000

/-! ## The claims -/

/-- C1: for settings with a present start date (and the data-model
invariant `interval >= 1`), every string the expansion returns is the
ISO rendering of a day lying in the inclusive range from the start date
to the effective end date (the parsed end date, or January 1 of the
start year plus five when absent), for all four frequencies, including
monthly `onDay` dates that roll into a neighboring month. -/
theorem calculateRecurringDates_bounds (s : RecurringSettings) (sd : CivilDate)
    (hs : s.startDate = some sd) (hint : 1 ≤ s.interval) (str : String)
    (hmem : str ∈ calculateRecurringDates s) :
    InRange sd.toDayNumber (calcEnd sd.toDayNumber s.endDate) str := by
  simp only [calculateRecurringDates, hs] at hmem
  exact calcLoop_bounds s sd.toDayNumber (calcEnd sd.toDayNumber s.endDate) hint
    maxIterations 0 sd.toDayNumber [] (fun _ => le_refl _) (by simp) str
    (mem_sortStrings.1 hmem)

theorem calculateRecurringDates_bounds_witness :
    InRange (CivilDate.toDayNumber ⟨2024, 1, 1⟩)
      (calcEnd (CivilDate.toDayNumber ⟨2024, 1, 1⟩) exampleDaily.endDate)
      "2024-01-02" :=
  calculateRecurringDates_bounds exampleDaily ⟨2024, 1, 1⟩ rfl (by decide)
    "2024-01-02" (by decide)

/-- C2: for every settings value, the output list has no duplicates and
is strictly ascending in the lexicographic (code point) order of the
ISO date strings. -/
theorem calculateRecurringDates_sorted_nodup (s : RecurringSettings) :
    (calculateRecurringDates s).Pairwise (fun a b => strLt a b = true) ∧
    (calculateRecurringDates s).Nodup := by
  rcases hs : s.startDate with _ | sd
  · simp [calculateRecurringDates, hs]
  · simp only [calculateRecurringDates, hs]
    have hnd : (calcLoop s sd.toDayNumber (calcEnd sd.toDayNumber s.endDate)
        maxIterations 0 sd.toDayNumber []).1.Nodup :=
      calcLoop_nodup s _ _ _ _ _ _ List.nodup_nil
    have hnd2 := (sortStrings_perm _).symm.nodup hnd
    have hsorted := sortStrings_sorted (calcLoop s sd.toDayNumber
      (calcEnd sd.toDayNumber s.endDate) maxIterations 0 sd.toDayNumber []).1
    refine ⟨?_, hnd2⟩
    exact (hsorted.and hnd2).imp (fun hab => strLt_of_le_of_ne hab.1 hab.2)

/-- C3: the walk performs at most 2000 iterations for any settings
value; when the iteration budget is exhausted the loop returns exactly
the dates accumulated so far, and when the cursor passes the effective
end date the loop also stops with the accumulated dates.  All outcomes
are ordinary return values, not errors. -/
theorem calc_iteration_cap :
    (∀ s : RecurringSettings, calcIterations s ≤ maxIterations) ∧
    (∀ (s : RecurringSettings) (startNum endD : Int) (iterations : Nat)
        (current : Int) (dates : List String),
      calcLoop s startNum endD 0 iterations current dates = (dates, iterations)) ∧
    (∀ (s : RecurringSettings) (startNum endD : Int) (fuel iterations : Nat)
        (current : Int) (dates : List String), endD < current →
      calcLoop s startNum endD (fuel + 1) iterations current dates
        = (dates, iterations)) := by
  refine ⟨?_, ?_, ?_⟩
  · intro s
    rcases hs : s.startDate with _ | sd
    · simp [calcIterations, hs, maxIterations]
    · simp only [calcIterations, hs]
      exact calcLoop_count s _ _ maxIterations 0 _ _
  · intro s startNum endD iterations current dates
    rfl
  · intro s startNum endD fuel iterations current dates h
    simp only [calcLoop]
    rw [if_neg (by omega)]

theorem calc_iteration_cap_witness :
    calcLoop exampleDaily 0 (-1) (0 + 1) 3 5 ["a"] = (["a"], 3) :=
  calc_iteration_cap.2.2 exampleDaily 0 (-1) 0 3 5 ["a"] (by decide)

/-- Setting the day to 1 on the first of a month is the identity. -/
theorem setDate_mkDate_one (y m : Int) :
    setDate (mkDate y m 1) 1 = mkDate y m 1 := by
  simp only [setDate, getFullYear, getMonth]
  rw [civil_mkDate_one]
  simp only [mkDate]
  have e1 : (m % 12 + 1 - 1) / 12 = 0 := by omega
  have e2 : (m % 12 + 1 - 1) % 12 = m % 12 := by omega
  rw [e1, e2]
  ring

/-- The linear month index of the first of a month. -/
theorem yearMonth_mkDate_one (y m : Int) :
    getFullYear (mkDate y m 1) * 12 + getMonth (mkDate y m 1) = y * 12 + m := by
  simp only [getFullYear, getMonth]
  rw [civil_mkDate_one]
  simp only
  omega

/-- C4 counterexample: the claimed cursor advance fails at a concrete
input.  Advancing the cursor 2024-01-31 by one month does not land on
day 1 of February (the next month of the arithmetic progression) but on
day 1 of March, and in the full expansion February contributes no date
even though its `onDay` day 1 lies inside the range, while March does
contribute. -/
theorem monthlyAdvance_skips_month :
    monthlyAdvance (CivilDate.toDayNumber ⟨2024, 1, 31⟩) 1 ≠ mkDate 2024 1 1 ∧
    monthlyAdvance (CivilDate.toDayNumber ⟨2024, 1, 31⟩) 1 = mkDate 2024 2 1 ∧
    "2024-02-01" ∉ calculateRecurringDates exampleMonthlySkip ∧
    "2024-03-01" ∈ calculateRecurringDates exampleMonthlySkip := by
  refine ⟨by decide, by decide, by decide, by decide⟩

/-- C4 (amended): on every iteration on which the cursor already sits on
day 1 of a month (which holds from the second iteration on, since every
advance ends with a reset to day 1), advancing by `interval` months
lands exactly `interval` months later on day 1, so from the second
visited month onward the months form the arithmetic progression with
none skipped; on the first iteration, when the start day-of-month
exceeds the length of the target month, JavaScript `setMonth` rolls
past it and months of the progression can be skipped. -/
theorem monthlyAdvance_day_one :
    (∀ t i : Int, getDate t = 1 →
        monthlyAdvance t i = mkDate (getFullYear t) (getMonth t + i) 1 ∧
        getFullYear (monthlyAdvance t i) * 12 + getMonth (monthlyAdvance t i)
          = getFullYear t * 12 + getMonth t + i) ∧
    (∀ t i : Int, getDate (monthlyAdvance t i) = 1) := by
  have key : ∀ t i : Int, getDate t = 1 →
      monthlyAdvance t i = mkDate (getFullYear t) (getMonth t + i) 1 := by
    intro t i hd
    simp only [monthlyAdvance, setMonth, hd]
    exact setDate_mkDate_one (getFullYear t) (getMonth t + i)
  refine ⟨fun t i hd => ⟨key t i hd, ?_⟩, fun t i => ?_⟩
  · rw [key t i hd, yearMonth_mkDate_one]
    ring
  · simp only [monthlyAdvance]
    exact getDate_setDate_one _

theorem monthlyAdvance_day_one_witness :
    monthlyAdvance (mkDate 2024 0 1) 2
      = mkDate (getFullYear (mkDate 2024 0 1)) (getMonth (mkDate 2024 0 1) + 2) 1 :=
  (monthlyAdvance_day_one.1 (mkDate 2024 0 1) 2 (by decide)).1

/-- C5: the weekly arm.  Aligning the cursor back by the weekday of the
start date is a plain day subtraction landing on the Sunday on or before
it; the 7-day scan of the aligned week emits exactly the days whose
weekday is selected and which lie inside the inclusive range, and leaves
the cursor 7 days later; the closing `setDate` advance adds exactly its
day offset (in the loop, `(interval - 1) * 7` days); and on the spec
example (start 2024-01-01, Monday and Wednesday selected, end
2024-01-14) the expansion is exactly the four claimed dates. -/
theorem weekly_step_spec :
    (∀ startNum : Int,
        setDate startNum (getDate startNum - getDay startNum)
          = startNum - getDay startNum ∧
        getDay (startNum - getDay startNum) = 0 ∧
        startNum - getDay startNum ≤ startNum ∧
        startNum < startNum - getDay startNum + 7) ∧
    (∀ (wd : Int → Bool) (startNum endD cur : Int) (dates : List String)
        (str : String),
        (str ∈ (weeklyScan 7 wd startNum endD cur dates).2 ↔
          str ∈ dates ∨ ∃ j : Nat, j < 7 ∧ wd (getDay (cur + (j : Int))) = true ∧
            startNum ≤ cur + (j : Int) ∧ cur + (j : Int) ≤ endD ∧
            str = toISO (cur + (j : Int))) ∧
        (weeklyScan 7 wd startNum endD cur dates).1 = cur + 7) ∧
    (∀ cur k : Int, setDate cur (getDate cur + k) = cur + k) ∧
    calculateRecurringDates exampleWeekly
      = ["2024-01-01", "2024-01-03", "2024-01-08", "2024-01-10"] := by
  refine ⟨?_, ?_, setDate_add, by decide⟩
  · intro startNum
    have hb := getDay_bounds startNum
    exact ⟨setDate_sub startNum (getDay startNum), getDay_align startNum,
      by omega, by omega⟩
  · intro wd startNum endD cur dates str
    refine ⟨weeklyScan_mem 7 wd startNum endD cur dates str, ?_⟩
    have := weeklyScan_cursor 7 wd startNum endD cur dates
    simpa using this

/-- Membership in the day array of a month. -/
theorem mem_daysInMonthArr (y m t : Int) :
    t ∈ daysInMonthArr y m ↔
      ∃ d : Int, 1 ≤ d ∧ d ≤ getDaysInMonth y m ∧ t = mkDate y m d := by
  have hr1 : 1 ≤ getDaysInMonth y m :=
    (civilFromDays_range (mkDate y (m + 1) 0)).2.2.1
  rw [daysInMonthArr, List.mem_map]
  constructor
  · rintro ⟨i, hi, rfl⟩
    rw [List.mem_range] at hi
    exact ⟨(i : Int) + 1, by omega, by omega, rfl⟩
  · rintro ⟨d, h1, h2, rfl⟩
    refine ⟨(d - 1).toNat, ?_, ?_⟩
    · rw [List.mem_range]
      omega
    · have hcast : (((d - 1).toNat : Int)) + 1 = d := by omega
      rw [hcast]

/-- C6: the monthly `onThe` arm.  The matching-day list of a month is
exactly its days falling on the target weekday; the `last` selector
takes the last of them; the step of the loop emits the selected target
exactly when it exists and lies in the inclusive range, and a month with
no such occurrence contributes nothing while expansion continues; on the
spec example the last Fridays of January, February and March 2024 are
produced, and with selector `fifth Sunday` only 2024-03-31 is produced
over January through April 2024. -/
theorem monthly_onThe_spec :
    (∀ y m wd t : Int, t ∈ matchingDays y m wd ↔
        ∃ d : Int, 1 ≤ d ∧ d ≤ getDaysInMonth y m ∧ t = mkDate y m d ∧
          getDay t = wd) ∧
    (∀ y m wd : Int,
        onTheTarget y m .last wd = (matchingDays y m wd).getLast?) ∧
    (∀ (interval : Int) (wdays : Int → Bool) (mOnDay : Int)
        (mot : MonthlyOnThe) (sd ed : Option CivilDate) (startNum endD : Int)
        (iterations : Nat) (current : Int) (dates : List String)
        (str : String),
        str ∈ (calcStep ⟨.monthly, interval, wdays, .onThe, mOnDay, mot, sd, ed⟩
            startNum endD iterations current dates).1 ↔
          str ∈ dates ∨ ∃ t, onTheTarget (getFullYear current) (getMonth current)
              mot.week mot.day = some t ∧ startNum ≤ t ∧ t ≤ endD ∧
            str = toISO t) ∧
    calculateRecurringDates exampleLastFriday
      = ["2024-01-26", "2024-02-23", "2024-03-29"] ∧
    calculateRecurringDates exampleFifthSunday = ["2024-03-31"] := by
  refine ⟨?_, ?_, ?_, by decide, by decide⟩
  · intro y m wd t
    rw [matchingDays, List.mem_filter, mem_daysInMonthArr]
    constructor
    · rintro ⟨⟨d, h1, h2, rfl⟩, hbeq⟩
      exact ⟨d, h1, h2, rfl, by simpa using hbeq⟩
    · rintro ⟨d, h1, h2, rfl, hday⟩
      exact ⟨⟨d, h1, h2, rfl⟩, by simpa using hday⟩
  · intro y m wd
    rw [onTheTarget, List.getLast?_eq_getElem?]
  · intro interval wdays mOnDay mot sd ed startNum endD iterations current dates str
    simp only [calcStep]
    rcases h : onTheTarget (getFullYear current) (getMonth current)
        mot.week mot.day with _ | t
    · simp [h]
    · simp only [h]
      split_ifs with hg
      · rw [mem_setAdd]
        constructor
        · rintro (hx | rfl)
          · exact Or.inl hx
          · exact Or.inr ⟨t, rfl, hg.1, hg.2, rfl⟩
        · rintro (hx | ⟨t2, ht2, h1, h2, rfl⟩)
          · exact Or.inl hx
          · rcases Option.some.inj ht2 with rfl
            exact Or.inr rfl
      · constructor
        · exact Or.inl
        · rintro (hx | ⟨t2, ht2, h1, h2, rfl⟩)
          · exact hx
          · rcases Option.some.inj ht2 with rfl
            exact absurd ⟨h1, h2⟩ hg

/-- C7: the yearly arm.  Each step emits the anniversary date built from
the cursor year and the month and day-of-month of the parsed start
date, and only when that date lies inside the inclusive range; the
cursor then advances via `setFullYear` to the current year plus
`interval`, and the advanced cursor really sits in that year, so the
visited years grow by exactly `interval`; on the spec example the three
anniversaries 2023-02-28, 2024-02-28 and 2025-02-28 are produced. -/
theorem yearly_step_spec :
    (∀ (interval : Int) (wdays : Int → Bool) (mt : MonthlyType)
        (mOnDay : Int) (mot : MonthlyOnThe) (sd ed : Option CivilDate)
        (startNum endD : Int) (iterations : Nat) (current : Int)
        (dates : List String),
        (∀ str : String,
          str ∈ (calcStep ⟨.yearly, interval, wdays, mt, mOnDay, mot, sd, ed⟩
              startNum endD iterations current dates).1 ↔
            str ∈ dates ∨
              (startNum ≤ mkDate (getFullYear current) (getMonth startNum)
                  (getDate startNum) ∧
                mkDate (getFullYear current) (getMonth startNum)
                    (getDate startNum) ≤ endD ∧
                str = toISO (mkDate (getFullYear current) (getMonth startNum)
                  (getDate startNum)))) ∧
        (calcStep ⟨.yearly, interval, wdays, mt, mOnDay, mot, sd, ed⟩
            startNum endD iterations current dates).2
          = setFullYear current (getFullYear current + interval) ∧
        getFullYear ((calcStep ⟨.yearly, interval, wdays, mt, mOnDay, mot, sd, ed⟩
            startNum endD iterations current dates).2)
          = getFullYear current + interval) ∧
    calculateRecurringDates exampleYearly
      = ["2023-02-28", "2024-02-28", "2025-02-28"] := by
  refine ⟨?_, by decide⟩
  intro interval wdays mt mOnDay mot sd ed startNum endD iterations current dates
  refine ⟨?_, rfl, getFullYear_setFullYear current (getFullYear current + interval)⟩
  intro str
  simp only [calcStep]
  split_ifs with hg
  · rw [mem_setAdd]
    constructor
    · rintro (hx | rfl)
      · exact Or.inl hx
      · exact Or.inr ⟨hg.1, hg.2, rfl⟩
    · rintro (hx | ⟨h1, h2, rfl⟩)
      · exact Or.inl hx
      · exact Or.inr rfl
  · constructor
    · exact Or.inl
    · rintro (hx | ⟨h1, h2, rfl⟩)
      · exact hx
      · exact absurd ⟨h1, h2⟩ hg

/-- C8: a settings value whose start date is absent or the empty string
expands to the empty list immediately, whatever the other fields are,
and without any error. -/
theorem calculateRecurringDates_no_start (freq : Frequency) (interval : Int)
    (wdays : Int → Bool) (mt : MonthlyType) (mOnDay : Int)
    (mot : MonthlyOnThe) (ed : Option CivilDate) :
    calculateRecurringDates ⟨freq, interval, wdays, mt, mOnDay, mot, none, ed⟩
      = [] := rfl

/-- C9: saving a schedule commits, as the per-date event map, the union
by date key of the previously saved assignments and the newly computed
ones, with the new assignment winning on every key collision; in
particular every previously saved assignment on a date absent from the
new result is preserved unchanged, and the saved data mirrors the same
merged map. -/
theorem handleSave_merge (st : AppState) (data : SavedData)
    (hnd : (data.events.map Prod.fst).Nodup) :
    (∀ k, objLookup (handleSave st data).events k
        = (objLookup data.events k).or (objLookup st.events k)) ∧
    (∀ k, objLookup data.events k = none →
        objLookup (handleSave st data).events k = objLookup st.events k) ∧
    (∃ sd, (handleSave st data).savedData = some sd ∧
        sd.events = (handleSave st data).events) := by
  refine ⟨?_, ?_, ⟨_, rfl, rfl⟩⟩
  · intro k
    exact objLookup_objSpread st.events data.events hnd k
  · intro k h
    have hk := objLookup_objSpread st.events data.events hnd k
    rw [h, Option.none_or] at hk
    exact hk

theorem handleSave_merge_witness :
    objLookup (handleSave exampleAppState exampleSavedData).events "2024-01-01"
      = (objLookup exampleSavedData.events "2024-01-01").or
          (objLookup exampleAppState.events "2024-01-01") :=
  (handleSave_merge exampleAppState exampleSavedData (by decide)).1 "2024-01-01"

/-- C10: after deleting an event type, the registry no longer contains a
type with that id, every per-date assignment of that type is removed
from the events map while assignments of other types are left unchanged,
and the saved data undergoes exactly the same cascade (same filtered
events map, no type with the deleted id). -/
theorem deleteEventType_spec (st : AppState) (tid : String)
    (hnd : (st.events.map Prod.fst).Nodup) :
    (∀ et ∈ (deleteEventType st tid).customEventTypes, et.id ≠ tid) ∧
    (∀ k, objLookup (deleteEventType st tid).events k
        = (objLookup st.events k).bind
            (fun a => if a.typeId = tid then none else some a)) ∧
    (∀ sd, (deleteEventType st tid).savedData = some sd →
        sd.events = (deleteEventType st tid).events ∧
        ∀ et ∈ sd.customEventTypes, et.id ≠ tid) := by
  refine ⟨?_, ?_, ?_⟩
  · intro et het
    simp only [deleteEventType] at het
    simpa using (List.mem_filter.1 het).2
  · intro k
    exact objLookup_filter_typeId tid st.events hnd k
  · intro sd hsd
    simp only [deleteEventType] at hsd
    rcases hst : st.savedData with _ | sd0
    · rw [hst] at hsd
      simp at hsd
    · rw [hst] at hsd
      rcases Option.some.inj hsd with rfl
      refine ⟨rfl, ?_⟩
      intro et het
      simpa using (List.mem_filter.1 het).2

theorem deleteEventType_spec_witness :
    objLookup (deleteEventType exampleAppState "evt_1").events "2024-01-01"
      = (objLookup exampleAppState.events "2024-01-01").bind
          (fun a => if a.typeId = "evt_1" then none else some a) :=
  (deleteEventType_spec exampleAppState "evt_1" (by decide)).2.1 "2024-01-01"
